import Mathlib

/-!
Verification of the replicax request-routing and middleware-dispatch engine.

The definitions below are a shallow embedding of the framework's core
(`pathToRegex`, `register`, `parseBody`, `runMiddlewares`, `routeHandler`,
the per-route handler loop `next`, and `handleRequest`).  Route patterns
are compiled to an alternating list of literal chunks and named captures,
mirroring the regex `^ ... (?<key>[^\/]+) ... $` that the source builds;
matching uses the greedy-with-backtracking semantics of that regex.
Middleware and handler functions are opaque JavaScript callables in the
source; they are embedded as functions from the request context and the
response object to an outcome: finish without calling the continuation,
call the continuation (with possibly updated request/response), or throw.
-/

namespace Replicax

/-- A compiled piece of a route pattern: either a literal run of characters
(matched verbatim) or a named capture `(?<k>[^\/]+)` produced from `:k`. -/
inductive Token where
  | lit (s : List Char) : Token
  | key (k : String) : Token
deriving Repr, DecidableEq

/-- The character class `[A-Za-z0-9_]` used by the source's capture regex
`:([A-Za-z0-9_]+)`. -/
def isWordChar (c : Char) : Bool :=
  c.isAlpha || c.isDigit || c == '_'

/-- Prepend one verbatim character to a token list, merging it into a
leading literal chunk when there is one. -/
def consLit (c : Char) : List Token → List Token
  | Token.lit s :: ts => Token.lit (c :: s) :: ts
  | ts => Token.lit [c] :: ts

/-- Left-to-right scan of `:([A-Za-z0-9_]+)/g`: every occurrence of `:`
followed by a maximal nonempty run of word characters becomes a named
capture; every other character stays a verbatim literal.  The `fuel`
argument only bounds the recursion (the scan consumes the input list,
but jumps over a whole capture name at once); `tokenize` below supplies
`fuel = length`, which is always sufficient. -/
def tokenizeAux : Nat → List Char → List Token
  | _, [] => []
  | 0, _ :: _ => []
  | fuel + 1, c :: rest =>
    if c = ':' then
      if (rest.takeWhile isWordChar).isEmpty then consLit ':' (tokenizeAux fuel rest)
      else Token.key (String.mk (rest.takeWhile isWordChar))
        :: tokenizeAux fuel (rest.dropWhile isWordChar)
    else consLit c (tokenizeAux fuel rest)

/-- Compile the characters of a (already trailing-slash-normalized) pattern
into tokens. -/
def tokenize (cs : List Char) : List Token :=
  tokenizeAux cs.length cs

/-- The source's `TRAILING_SLASH_REGEXP = /\/+$/` replacement: remove every
trailing `/` character. -/
def stripTrailingSlashes (l : List Char) : List Char :=
  (l.reverse.dropWhile (fun c => c == '/')).reverse

/-- `path.replace(TRAILING_SLASH_REGEXP, '') || '/'`: strip trailing slashes,
and an empty (or all-slash) path becomes `/`. -/
def normalizePath (s : String) : String :=
  let c := stripTrailingSlashes s.data
  if c.isEmpty then "/" else String.mk c

/-- The declared capture names of a compiled pattern, in occurrence order
(the source pushes each name onto `keys` during the same scan). -/
def keysOf (ts : List Token) : List String :=
  ts.filterMap fun t => match t with
    | Token.key k => some k
    | _ => none

/-- `pathToRegex`: normalize the pattern, compile it, and report the capture
names.  The first component stands for the anchored regex `^...$`, the
second for the `keys` array of the source. -/
def pathToRegex (path : String) : List Token × List String :=
  let ts := tokenize (normalizePath path).data
  (ts, keysOf ts)

/-- Greedy backtracking loop for one capture `(?<k>[^\/]+)`: try the longest
candidate length first (the argument starts at the length of the maximal
non-slash run), retreating one character at a time, exactly as the regex
engine backtracks a greedy `+`.  `cont` matches the remaining tokens. -/
def tryLens (k : String) (cont : List Char → Option (List (String × String)))
    (input : List Char) : Nat → Option (List (String × String))
  | 0 => none
  | n + 1 =>
    match (cont (input.drop (n + 1))).map
        (fun m => (k, String.mk (input.take (n + 1))) :: m) with
    | some r => some r
    | none => tryLens k cont input n

/-- Anchored match of a compiled pattern against a path, returning the
captured groups (`match.groups`) in occurrence order, or `none` when the
regex does not match.  Literal chunks must match verbatim; each capture
consumes a nonempty run of non-`/` characters, greedily with backtracking. -/
def matchTokens : List Token → List Char → Option (List (String × String))
  | [], [] => some []
  | [], _ :: _ => none
  | Token.lit s :: ts, input =>
    if s.isPrefixOf input then matchTokens ts (input.drop s.length) else none
  | Token.key k :: ts, input =>
    tryLens k (matchTokens ts) input ((input.takeWhile (fun c => c != '/')).length)

/-- After a capture, the remaining tokens must start with a literal chunk
beginning with `/` (or be exhausted) for `chainOk` decompositions; this is
what makes the greedy first try of the capture succeed immediately. -/
def boundaryOk : List Token → Bool
  | [] => true
  | Token.lit (c :: _) :: _ => c == '/'
  | _ => false

/-- A structural decomposition of `input` along the tokens: literal chunks
appear verbatim, and each capture takes a nonempty run of non-separator
characters that extends to the next `/` (or the end).  This is the
"concrete path structurally matches the pattern" relation of the claim. -/
def chainOk : List Token → List Char → List (String × String) → Bool
  | [], [], [] => true
  | Token.lit s :: ts, input, m =>
    s.isPrefixOf input && chainOk ts (input.drop s.length) m
  | Token.key k :: ts, input, (k', v) :: m =>
    (k' == k) && (!v.data.isEmpty) && v.data.all (fun c => c != '/')
      && v.data.isPrefixOf input && boundaryOk ts
      && chainOk ts (input.drop v.data.length) m
  | _, _, _ => false

example : pathToRegex "/users/:id/posts/:postId"
    = ([Token.lit "/users/".data, Token.key "id",
        Token.lit "/posts/".data, Token.key "postId"], ["id", "postId"]) := by
  decide

example : matchTokens (pathToRegex "/users/:id/posts/:postId").1 "/users/42/posts/7".data
    = some [("id", "42"), ("postId", "7")] := by decide

example : matchTokens (pathToRegex "/a:b").1 "/aZ".data = some [("b", "Z")] := by decide

example : chainOk (pathToRegex "/users/:id/posts/:postId").1 "/users/42/posts/7".data
    [("id", "42"), ("postId", "7")] = true := by decide

/-- The response object, restricted to the fields the framework itself
touches: the status code (`res.statusCode`, default 200), the content type
header set by `res.json`, and the body written by `res.json` / `res.end`
(`none` while nothing has been written). -/
structure Res where
  statusCode : Nat
  contentType : Option String
  body : Option String
deriving Repr, DecidableEq

/-- `res.status(code)` from `enhanceResponse`: set the status code and
return the response for chaining. -/
def Res.status (res : Res) (code : Nat) : Res :=
  { res with statusCode := code }

/-- `res.json(data)` from `enhanceResponse`: set the JSON content type and
end the response with the serialized payload (`data` is the already
serialized JSON text). -/
def Res.json (res : Res) (data : String) : Res :=
  { res with contentType := some "application/json", body := some data }

/-- A fresh Node response before anything is written. -/
def initRes : Res :=
  { statusCode := 200, contentType := none, body := none }

/-- `JSON.stringify({ error: 'Route not found' })`. -/
def routeNotFoundBody : String :=
  "\x7b\"error\":\"Route not found\"\x7d"

/-- `JSON.stringify({ error: 'Internal Server Error' })`. -/
def internalServerErrorBody : String :=
  "\x7b\"error\":\"Internal Server Error\"\x7d"

/-- `JSON.stringify({ error: 'Server error', message: err.message })`, with
`msg` standing for the (already JSON-escaped) error message text. -/
def serverErrorBody (msg : String) : String :=
  "\x7b\"error\":\"Server error\",\"message\":\"" ++ msg ++ "\"\x7d"

/-- The response produced by the outermost catch of `handleRequest`:
`res.writeHead(500, { 'Content-Type': 'application/json' })` followed by
`res.end(JSON.stringify({ error: 'Server error', message: err.message }))`.
All three modeled fields are overwritten, so the result does not depend on
the state the response was in when the error escaped. -/
def serverErrorRes (msg : String) : Res :=
  { statusCode := 500, contentType := some "application/json",
    body := some (serverErrorBody msg) }

/-- The request context handed to middlewares and handlers: the HTTP method,
the raw (unnormalized) request URL path, the parsed body (of an abstract
JSON-value type `α`), and the extracted path parameters (`req.params`,
empty until a route matches).  The raw byte stream feeding `parseBody` is
not a field: it is consumed before the pipeline starts. -/
structure Request (α : Type) where
  method : String
  url : String
  body : α
  params : List (String × String)

/-- The observable behavior of one middleware or handler invocation
`f(req, res, next)`: it either returns without ever calling `next` (having
produced some response state), finishes by calling `next` (with the request
and response it may have mutated), or throws an error carrying a message. -/
inductive StepResult (α : Type) where
  | stop (res : Res) : StepResult α
  | next (req : Request α) (res : Res) : StepResult α
  | threw (msg : String) : StepResult α

/-- An app-wide middleware `(req, res, next) => ...`. -/
def Middleware (α : Type) : Type :=
  Request α → Res → StepResult α

/-- A route handler `(req, res, next) => ...`. -/
def Handler (α : Type) : Type :=
  Request α → Res → StepResult α

/-- One entry of the route table: the registered method string, the compiled
pattern, and the ordered handler list. -/
structure Route (α : Type) where
  method : String
  tokens : List Token
  handlers : List (Handler α)

/-- `register(method, path, ...handler)`: compile the pattern and append the
entry to the route table (`routes.push`). -/
def register {α : Type} (routes : List (Route α)) (method path : String)
    (handlers : List (Handler α)) : List (Route α) :=
  routes ++ [{ method := method, tokens := (pathToRegex path).1, handlers := handlers }]

/-- `parseBody(req)`: for POST/PUT/PATCH the accumulated payload is parsed
(`JSON.parse` is the abstract `parse`), and a parse failure is silently
replaced by the empty object `empty`; every other method gets the empty
object without the stream being read. -/
def parseBody {α : Type} (parse : String → Option α) (empty : α)
    (method rawBody : String) : α :=
  if method = "POST" ∨ method = "PUT" ∨ method = "PATCH" then
    (parse rawBody).getD empty
  else empty

/-- The request context as it stands when `runMiddlewares()` is first
invoked: `req.params = {}` was just set and `await parseBody(req)` has
completed. -/
def mkRequest {α : Type} (parse : String → Option α) (empty : α)
    (method rawPath rawBody : String) : Request α :=
  { method := method, url := rawPath,
    body := parseBody parse empty method rawBody, params := [] }

/-- The per-route `next()` closure: run the handler list in order; a handler
that calls its continuation hands control to the next one; a handler that
returns without calling it ends the chain; a throwing handler is caught
right there and the response becomes `res.status(500).json({ error:
'Internal Server Error' })`, after which no further handler runs. -/
def runHandlers {α : Type} : List (Handler α) → Request α → Res → Res
  | [], _, res => res
  | h :: rest, req, res =>
    match h req res with
    | StepResult.stop r => r
    | StepResult.next q r => runHandlers rest q r
    | StepResult.threw _ => (res.status 500).json internalServerErrorBody

/-- `routeHandler()`: walk the route table in registration order; the first
entry whose compiled regex matches the normalized pathname and whose method
equals the request method wins — its captures become `req.params` and its
handler chain runs.  If no entry wins, respond
`res.status(404).json({ error: 'Route not found' })`. -/
def routeHandler {α : Type} : List (Route α) → String → String → Request α → Res → Res
  | [], _, _, _, res => (res.status 404).json routeNotFoundBody
  | r :: rest, pathname, method, req, res =>
    match matchTokens r.tokens pathname.data with
    | some m =>
      if method = r.method then runHandlers r.handlers { req with params := m } res
      else routeHandler rest pathname method req res
    | none => routeHandler rest pathname method req res

/-- `runMiddlewares()`: walk the global middleware chain in registration
order, threading the request/response a middleware passes to its
continuation; a middleware that returns without calling `next` makes its
response final; when the chain is exhausted, control passes to `finish`
(which `handleRequest` instantiates with `routeHandler`).  A middleware
that throws has no local catch: the error escapes as `Except.error` to the
outermost catch. -/
def runMiddlewares {α : Type} : List (Middleware α) → (Request α → Res → Res) →
    Request α → Res → Except String Res
  | [], finish, req, res => Except.ok (finish req res)
  | mw :: rest, finish, req, res =>
    match mw req res with
    | StepResult.stop r => Except.ok r
    | StepResult.next q r => runMiddlewares rest finish q r
    | StepResult.threw e => Except.error e

/-- `handleRequest(req, res)`: normalize the pathname, parse the body, run
the middleware chain and then the routing stage; any error escaping that
pipeline is caught by the outermost try/catch and answered with the
generic 500 server-error response. -/
def handleRequest {α : Type} (mws : List (Middleware α)) (routes : List (Route α))
    (parse : String → Option α) (empty : α) (method rawPath rawBody : String) : Res :=
  match runMiddlewares mws (routeHandler routes (normalizePath rawPath) method)
      (mkRequest parse empty method rawPath rawBody) initRes with
  | Except.ok res => res
  | Except.error msg => serverErrorRes msg

theorem String_mk_data (s : String) : String.mk s.data = s := rfl

theorem chainOk_nil_input {input : List Char} {m : List (String × String)}
    (h : chainOk [] input m = true) : input = [] ∧ m = [] := by
  cases input <;> cases m <;> simp_all [chainOk]

theorem takeWhile_append_boundary (v rest : List Char)
    (hv : ∀ c ∈ v, (c != '/') = true)
    (hr : rest = [] ∨ ∃ t, rest = '/' :: t) :
    (v ++ rest).takeWhile (fun c => c != '/') = v := by
  induction v with
  | nil =>
    rcases hr with h | ⟨t, h⟩ <;> subst h <;> simp [List.takeWhile]
  | cons c v ih =>
    have hc := hv c (List.mem_cons_self c v)
    simp only [List.cons_append, List.takeWhile_cons, hc, if_true]
    rw [ih (fun c' hc' => hv c' (List.mem_cons_of_mem _ hc'))]

theorem boundary_rest_shape {ts : List Token} {rest : List Char}
    {m : List (String × String)}
    (hb : boundaryOk ts = true) (hc : chainOk ts rest m = true) :
    rest = [] ∨ ∃ t, rest = '/' :: t := by
  match ts, hb with
  | [], _ => exact Or.inl (chainOk_nil_input hc).1
  | Token.lit (c :: s) :: ts', hb =>
    have hc' : (c :: s).isPrefixOf rest = true := by
      simp only [chainOk, Bool.and_eq_true] at hc
      exact hc.1
    cases rest with
    | nil => simp [List.isPrefixOf] at hc'
    | cons r rs =>
      refine Or.inr ⟨rs, ?_⟩
      have hcr : c = r := by
        simp only [List.isPrefixOf, Bool.and_eq_true, beq_iff_eq] at hc'
        exact hc'.1
      have hcs : c = '/' := by
        simp only [boundaryOk, beq_iff_eq] at hb
        exact hb
      rw [← hcr, hcs]

theorem tryLens_exact (k : String) (cont : List Char → Option (List (String × String)))
    (v rest : List Char) (m : List (String × String))
    (hlen : 0 < v.length) (hcont : cont rest = some m) :
    tryLens k cont (v ++ rest) v.length = some ((k, String.mk v) :: m) := by
  cases v with
  | nil => exact absurd hlen (by simp)
  | cons c cs =>
    show tryLens k cont ((c :: cs) ++ rest) (cs.length + 1) = _
    have hd : ((c :: cs) ++ rest).drop (cs.length + 1) = rest :=
      List.drop_left (c :: cs) rest
    have ht : ((c :: cs) ++ rest).take (cs.length + 1) = c :: cs :=
      List.take_left (c :: cs) rest
    simp only [tryLens, hd, ht, hcont, Option.map_some']

theorem chainOk_matchTokens :
    ∀ (ts : List Token) (input : List Char) (m : List (String × String)),
      chainOk ts input m = true → matchTokens ts input = some m := by
  intro ts
  induction ts with
  | nil =>
    intro input m h
    obtain ⟨hi, hm⟩ := chainOk_nil_input h
    subst hi; subst hm; rfl
  | cons t ts ih =>
    intro input m h
    cases t with
    | lit s =>
      simp only [chainOk, Bool.and_eq_true] at h
      obtain ⟨hp, hc⟩ := h
      simp only [matchTokens, hp, if_true]
      exact ih _ _ hc
    | key k =>
      cases m with
      | nil => simp [chainOk] at h
      | cons kv m' =>
        obtain ⟨k', v⟩ := kv
        simp only [chainOk, Bool.and_eq_true, and_assoc] at h
        obtain ⟨hk, hne, hall, hpre, hb, hc⟩ := h
        have hk' : k' = k := by simpa using hk
        subst hk'
        obtain ⟨rest, hrest⟩ := List.isPrefixOf_iff_prefix.mp hpre
        subst hrest
        rw [List.drop_left] at hc
        have hshape := boundary_rest_shape hb hc
        have hall' : ∀ c ∈ v.data, (c != '/') = true := List.all_eq_true.mp hall
        have htw := takeWhile_append_boundary v.data rest hall' hshape
        have hlen : 0 < v.data.length := by
          cases hvd : v.data with
          | nil => rw [hvd] at hne; simp at hne
          | cons c cs => simp
        simp only [matchTokens, htw]
        exact tryLens_exact k' (matchTokens ts) v.data rest m' hlen (ih _ _ hc)

theorem keysOf_lit (s : List Char) (ts : List Token) :
    keysOf (Token.lit s :: ts) = keysOf ts := rfl

theorem keysOf_key (k : String) (ts : List Token) :
    keysOf (Token.key k :: ts) = k :: keysOf ts := rfl

theorem chainOk_keys :
    ∀ (ts : List Token) (input : List Char) (m : List (String × String)),
      chainOk ts input m = true → m.map Prod.fst = keysOf ts := by
  intro ts
  induction ts with
  | nil =>
    intro input m h
    rw [(chainOk_nil_input h).2]
    rfl
  | cons t ts ih =>
    intro input m h
    cases t with
    | lit s =>
      simp only [chainOk, Bool.and_eq_true] at h
      rw [keysOf_lit]
      exact ih _ _ h.2
    | key k =>
      cases m with
      | nil => simp [chainOk] at h
      | cons kv m' =>
        obtain ⟨k', v⟩ := kv
        simp only [chainOk, Bool.and_eq_true, and_assoc] at h
        obtain ⟨hk, _, _, _, _, hc⟩ := h
        have hk' : k' = k := by simpa using hk
        subst hk'
        rw [keysOf_key, List.map_cons, ih _ _ hc]

/-- Claim C1: for every route pattern, when the compiled matcher is applied
to a concrete path that structurally matches the pattern (literal chunks
verbatim, each parameter standing for a nonempty run of non-`/` characters
— the `chainOk` decomposition), it returns exactly the mapping from each
declared parameter name to the corresponding path segment, in declaration
order. -/
theorem route_param_extraction (pat : String) (input : List Char)
    (m : List (String × String))
    (h : chainOk (pathToRegex pat).1 input m = true) :
    matchTokens (pathToRegex pat).1 input = some m
      ∧ m.map Prod.fst = (pathToRegex pat).2 :=
  ⟨chainOk_matchTokens _ _ _ h, (chainOk_keys _ _ _ h).trans rfl⟩

/-- Witness for C1 at the spec's example: pattern `/users/:id/posts/:postId`
applied to `/users/42/posts/7` yields `id = 42`, `postId = 7`. -/
theorem route_param_extraction_witness :
    matchTokens (pathToRegex "/users/:id/posts/:postId").1 "/users/42/posts/7".data
        = some [("id", "42"), ("postId", "7")]
      ∧ [(("id" : String), ("42" : String)), ("postId", "7")].map Prod.fst
        = (pathToRegex "/users/:id/posts/:postId").2 :=
  route_param_extraction "/users/:id/posts/:postId" "/users/42/posts/7".data
    [("id", "42"), ("postId", "7")] (by decide)

/-- Claim C2: dispatch tries route entries strictly in registration order;
the first entry whose method equals the request method exactly and whose
compiled matcher matches the normalized path wins.  If every earlier entry
fails (by path or by method) and `r` matches on both, the result is
exactly `r`'s handler chain run with `r`'s captures — independent of
whatever entries were registered after `r`, so there is no specificity
ranking and no backtracking across entries. -/
theorem first_match_wins {α : Type} (pre : List (Route α)) (r : Route α)
    (post : List (Route α)) (pathname mth : String) (req : Request α) (res : Res)
    (m : List (String × String))
    (hpre : ∀ r' ∈ pre, matchTokens r'.tokens pathname.data = none ∨ mth ≠ r'.method)
    (hm : matchTokens r.tokens pathname.data = some m)
    (hmeth : mth = r.method) :
    routeHandler (pre ++ r :: post) pathname mth req res
      = runHandlers r.handlers { req with params := m } res := by
  induction pre with
  | nil =>
    simp only [List.nil_append, routeHandler, hm, hmeth, if_true]
  | cons r0 pre ih =>
    have h0 := hpre r0 (List.mem_cons_self r0 pre)
    have hrec := ih (fun r' hr' => hpre r' (List.mem_cons_of_mem r0 hr'))
    rcases h0 with h0 | h0
    · simpa only [List.cons_append, routeHandler, h0] using hrec
    · cases hmm : matchTokens r0.tokens pathname.data with
      | none => simpa only [List.cons_append, routeHandler, hmm] using hrec
      | some m0 =>
        simp only [List.cons_append, routeHandler, hmm]
        rw [if_neg h0]
        exact hrec

/-- A first registered route `GET /users/:id`, stopping with a marker body. -/
def wRouteOne : Route Unit :=
  { method := "GET", tokens := (pathToRegex "/users/:id").1,
    handlers := [fun _ res => StepResult.stop (res.json "one")] }

/-- A second, overlapping registered route `GET /users/abc`. -/
def wRouteTwo : Route Unit :=
  { method := "GET", tokens := (pathToRegex "/users/abc").1,
    handlers := [fun _ res => StepResult.stop (res.json "two")] }

/-- A concrete GET request context used by witnesses. -/
def wReq : Request Unit :=
  { method := "GET", url := "/users/abc", body := (), params := [] }

/-- Witness for C2: with the overlapping routes `GET /users/:id` (registered
first) and `GET /users/abc` (registered second), the path `/users/abc` is
dispatched to the first one, with `id = abc`. -/
theorem first_match_wins_witness :
    routeHandler [wRouteOne, wRouteTwo] "/users/abc" "GET" wReq initRes
      = runHandlers wRouteOne.handlers { wReq with params := [("id", "abc")] } initRes :=
  first_match_wins [] wRouteOne [wRouteTwo] "/users/abc" "GET" wReq initRes
    [("id", "abc")] (by simp) (by decide) rfl

theorem runMiddlewares_veto {α : Type} (m : Middleware α)
    (hm : ∀ q r, ∃ r', m q r = StepResult.stop r') :
    ∀ (pre post₁ post₂ : List (Middleware α)) (f₁ f₂ : Request α → Res → Res)
      (q : Request α) (r : Res),
      runMiddlewares (pre ++ m :: post₁) f₁ q r
        = runMiddlewares (pre ++ m :: post₂) f₂ q r := by
  intro pre
  induction pre with
  | nil =>
    intro post₁ post₂ f₁ f₂ q r
    obtain ⟨r', hr⟩ := hm q r
    simp only [List.nil_append, runMiddlewares, hr]
  | cons mw pre ih =>
    intro post₁ post₂ f₁ f₂ q r
    simp only [List.cons_append, runMiddlewares]
    cases mw q r with
    | stop r0 => rfl
    | next q0 r0 => exact ih post₁ post₂ f₁ f₂ q0 r0
    | threw e => rfl

/-- Claim C3: a middleware that never invokes its continuation makes the
whole response independent of everything that comes after it — the later
middlewares, the route table, and hence any route lookup, route handler,
or framework-generated 404: the two runs below differ arbitrarily in both,
yet produce the same response, namely whatever the chain up to and
including the vetoing middleware produced. -/
theorem middleware_veto {α : Type} (pre post₁ post₂ : List (Middleware α))
    (m : Middleware α) (routes₁ routes₂ : List (Route α))
    (parse : String → Option α) (empty : α) (mth path raw : String)
    (hm : ∀ q r, ∃ r', m q r = StepResult.stop r') :
    handleRequest (pre ++ m :: post₁) routes₁ parse empty mth path raw
      = handleRequest (pre ++ m :: post₂) routes₂ parse empty mth path raw := by
  unfold handleRequest
  rw [runMiddlewares_veto m hm pre post₁ post₂
    (routeHandler routes₁ (normalizePath path) mth)
    (routeHandler routes₂ (normalizePath path) mth)]

/-- A middleware that responds directly and never calls `next`. -/
def wVetoMw : Middleware Unit :=
  fun _ res => StepResult.stop ((res.status 401).json "denied")

/-- A middleware that always passes through to its continuation. -/
def wPassMw : Middleware Unit :=
  fun req res => StepResult.next req res

/-- Witness for C3: with the vetoing middleware installed, a request gets
the same response whether the route table is empty (which would otherwise
produce the 404) or contains a matching route, and whether or not further
middleware follows. -/
theorem middleware_veto_witness :
    handleRequest [wVetoMw] ([] : List (Route Unit)) (fun _ => none) ()
        "GET" "/users/abc" ""
      = handleRequest [wVetoMw, wPassMw] [wRouteOne] (fun _ => none) ()
        "GET" "/users/abc" "" :=
  middleware_veto [] [] [wPassMw] wVetoMw [] [wRouteOne] (fun _ => none) ()
    "GET" "/users/abc" "" (fun _ r => ⟨(r.status 401).json "denied", rfl⟩)

/-- Claim C4: inside a matched route's handler chain, a handler that does
not invoke its continuation ends the chain: handlers listed after it never
execute, so the result is the same for any two continuations of the list.
In particular, for a 2-handler route whose first handler does not call
`next`, the second handler never runs. -/
theorem handler_chain_short_circuit {α : Type} (pre : List (Handler α))
    (h : Handler α) (post₁ post₂ : List (Handler α)) (req : Request α) (res : Res)
    (hh : ∀ q r, ∃ r', h q r = StepResult.stop r') :
    runHandlers (pre ++ h :: post₁) req res = runHandlers (pre ++ h :: post₂) req res := by
  induction pre generalizing req res with
  | nil =>
    obtain ⟨r', hr⟩ := hh req res
    simp only [List.nil_append, runHandlers, hr]
  | cons h0 pre ih =>
    simp only [List.cons_append, runHandlers]
    cases h0 req res with
    | stop r0 => rfl
    | next q0 r0 => exact ih q0 r0
    | threw e => rfl

/-- A first handler that responds directly and never calls `next`. -/
def wStopHandler : Handler Unit :=
  fun _ res => StepResult.stop (res.json "one")

/-- A second handler whose effect would be observable if it ever ran. -/
def wMarkHandler : Handler Unit :=
  fun _ res => StepResult.stop ((res.status 999).json "two")

/-- Witness for C4: a 2-handler route whose first handler does not call
`next` produces the same response as the same route without its second
handler — handler 2 never executes. -/
theorem handler_chain_short_circuit_witness :
    runHandlers [wStopHandler] wReq initRes
      = runHandlers [wStopHandler, wMarkHandler] wReq initRes :=
  handler_chain_short_circuit [] wStopHandler [] [wMarkHandler] wReq initRes
    (fun _ r => ⟨r.json "one", rfl⟩)

/-- Claim C5: a handler that throws is caught by the try/catch wrapped
around precisely that handler invocation: the response becomes status 500
with body `{"error":"Internal Server Error"}` (the error does not escape
the routing stage), and the handlers listed after it never execute — the
result does not depend on `post`. -/
theorem handler_throw_contained {α : Type} (h : Handler α)
    (post : List (Handler α)) (req : Request α) (res : Res) (msg : String)
    (hh : h req res = StepResult.threw msg) :
    runHandlers (h :: post) req res = (res.status 500).json internalServerErrorBody := by
  simp only [runHandlers, hh]

/-- A handler that throws. -/
def wThrowHandler : Handler Unit :=
  fun _ _ => StepResult.threw "boom"

/-- Witness for C5: a throwing first handler (followed by another handler
that never runs) yields exactly the 500 Internal Server Error response. -/
theorem handler_throw_contained_witness :
    runHandlers [wThrowHandler, wMarkHandler] wReq initRes
      = { statusCode := 500, contentType := some "application/json",
          body := some internalServerErrorBody } :=
  handler_throw_contained wThrowHandler [wMarkHandler] wReq initRes "boom" rfl

/-- Claim C6: an exception thrown directly inside a global middleware is not
wrapped by the per-handler try/catch — it reaches the outermost catch of
`handleRequest`, which answers 500 with body
`{"error":"Server error","message":<error message>}`; and that body is
never the handler-tier body `{"error":"Internal Server Error"}`. -/
theorem middleware_throw_top_level {α : Type} (m : Middleware α)
    (post : List (Middleware α)) (routes : List (Route α))
    (parse : String → Option α) (empty : α) (mth path raw msg : String)
    (hm : m (mkRequest parse empty mth path raw) initRes = StepResult.threw msg) :
    handleRequest (m :: post) routes parse empty mth path raw = serverErrorRes msg
      ∧ serverErrorBody msg ≠ internalServerErrorBody := by
  constructor
  · unfold handleRequest
    simp only [runMiddlewares, hm]
  · intro hcontra
    have hlen := congrArg String.length hcontra
    rw [serverErrorBody, String.length_append, String.length_append] at hlen
    have h1 : ("\x7b\"error\":\"Server error\",\"message\":\"" : String).length = 35 := by
      decide
    have h2 : ("\"\x7d" : String).length = 2 := by decide
    have h3 : internalServerErrorBody.length = 33 := by decide
    rw [h1, h2, h3] at hlen
    omega

/-- A middleware that throws. -/
def wThrowMw : Middleware Unit :=
  fun _ _ => StepResult.threw "boom"

/-- Witness for C6: a throwing middleware produces the top-level server
error response, whose body differs from the handler-tier 500 body. -/
theorem middleware_throw_top_level_witness :
    handleRequest [wThrowMw] ([wRouteOne] : List (Route Unit)) (fun _ => none) ()
        "GET" "/users/abc" "" = serverErrorRes "boom"
      ∧ serverErrorBody "boom" ≠ internalServerErrorBody :=
  middleware_throw_top_level wThrowMw [] [wRouteOne] (fun _ => none) ()
    "GET" "/users/abc" "" "boom" rfl

/-- Claim C7: the body is accumulated and parsed before the pipeline runs —
`handleRequest` is exactly the middleware/routing pipeline applied to the
already-parsed request context `mkRequest` (first conjunct).  For POST,
PUT and PATCH (exactly, case-sensitively) the context's body is the parse
result, falling back to the empty object on parse failure with no error
surfaced; for every other method the body is the empty object and the
whole response never depends on the raw payload — the body is never read. -/
theorem body_parsed_before_dispatch {α : Type} (parse : String → Option α)
    (empty : α) (mws : List (Middleware α)) (routes : List (Route α))
    (mth path raw : String) :
    (handleRequest mws routes parse empty mth path raw
      = match runMiddlewares mws (routeHandler routes (normalizePath path) mth)
            (mkRequest parse empty mth path raw) initRes with
        | Except.ok r => r
        | Except.error msg => serverErrorRes msg)
    ∧ ((mth = "POST" ∨ mth = "PUT" ∨ mth = "PATCH") →
        (mkRequest parse empty mth path raw).body = (parse raw).getD empty)
    ∧ (¬(mth = "POST" ∨ mth = "PUT" ∨ mth = "PATCH") →
        (mkRequest parse empty mth path raw).body = empty
          ∧ ∀ raw₂, handleRequest mws routes parse empty mth path raw
              = handleRequest mws routes parse empty mth path raw₂) := by
  refine ⟨rfl, ?_, ?_⟩
  · intro h
    simp only [mkRequest, parseBody, if_pos h]
  · intro h
    constructor
    · simp only [mkRequest, parseBody, if_neg h]
    · intro raw₂
      have hreq : mkRequest parse empty mth path raw
          = mkRequest parse empty mth path raw₂ := by
        simp only [mkRequest, parseBody, if_neg h]
      unfold handleRequest
      rw [hreq]

/-- A concrete stand-in for `JSON.parse`, succeeding only on the payload
`{"a":1}` (represented as the value 1). -/
def wParse : String → Option Nat :=
  fun s => if s = "\x7b\"a\":1\x7d" then some (1 : Nat) else none

/-- Witness for C7: a POST with the valid payload parses to its value, a
POST with an invalid payload silently gets the empty object, and a GET
gets the empty object whatever bytes arrive. -/
theorem body_parsed_before_dispatch_witness :
    (mkRequest wParse 0 "POST" "/x" "\x7b\"a\":1\x7d").body = 1
      ∧ (mkRequest wParse 0 "POST" "/x" "oops").body = 0
      ∧ (mkRequest wParse 0 "GET" "/x" "junk").body = 0 :=
  ⟨((body_parsed_before_dispatch wParse 0 [] [] "POST" "/x"
      "\x7b\"a\":1\x7d").2.1 (Or.inl rfl)).trans (by decide),
   ((body_parsed_before_dispatch wParse 0 [] [] "POST" "/x"
      "oops").2.1 (Or.inl rfl)).trans (by decide),
   ((body_parsed_before_dispatch wParse 0 [] [] "GET" "/x"
      "junk").2.2 (by decide)).1⟩

/-- Claim C9: when no registered entry matches the request (each entry fails
on the path or on the method — in particular when the table is empty), the
routing stage responds `res.status(404).json({ error: 'Route not found' })`,
and that response is what the request ends with. -/
theorem no_match_404 {α : Type} (routes : List (Route α)) (pathname mth : String)
    (req : Request α) (res : Res)
    (h : ∀ r ∈ routes, matchTokens r.tokens pathname.data = none ∨ mth ≠ r.method) :
    routeHandler routes pathname mth req res = (res.status 404).json routeNotFoundBody := by
  induction routes with
  | nil => rfl
  | cons r0 routes ih =>
    have h0 := h r0 (List.mem_cons_self r0 routes)
    have hrec := ih (fun r' hr' => h r' (List.mem_cons_of_mem r0 hr'))
    rcases h0 with h0 | h0
    · simpa only [routeHandler, h0] using hrec
    · cases hmm : matchTokens r0.tokens pathname.data with
      | none => simpa only [routeHandler, hmm] using hrec
      | some m0 =>
        simp only [routeHandler, hmm]
        rw [if_neg h0]
        exact hrec

/-- A registered POST route whose pattern would match `/nope`. -/
def wPostRoute : Route Unit :=
  { method := "POST", tokens := (pathToRegex "/nope").1, handlers := [] }

/-- Witness for C9: with one route failing on the path and one failing on
the method, a GET for `/nope` gets the 404 Route-not-found response. -/
theorem no_match_404_witness :
    routeHandler [wRouteOne, wPostRoute] "/nope" "GET" wReq initRes
      = (initRes.status 404).json routeNotFoundBody :=
  no_match_404 [wRouteOne, wPostRoute] "/nope" "GET" wReq initRes (by
    intro r hr
    simp only [List.mem_cons, List.mem_singleton, List.not_mem_nil, or_false] at hr
    rcases hr with hr | hr
    · subst hr
      exact Or.inl (by decide)
    · subst hr
      exact Or.inr (by decide))

/-- Two request contexts that agree on everything the dispatch engine itself
consults — method, parsed body, extracted params — but may differ in the
raw unnormalized `req.url`, which the framework hands through untouched. -/
def agreeExceptUrl {α : Type} (q q' : Request α) : Prop :=
  q.method = q'.method ∧ q.body = q'.body ∧ q.params = q'.params

/-- A middleware/handler that never inspects the raw `req.url`: on any two
contexts that agree except on the url it takes the same action with the
same response, forwarding contexts that again agree except on the url. -/
def urlInsensitive {α : Type} (f : Request α → Res → StepResult α) : Prop :=
  ∀ q q' r, agreeExceptUrl q q' →
    (∃ a, f q r = StepResult.stop a ∧ f q' r = StepResult.stop a) ∨
    (∃ qa qb a, f q r = StepResult.next qa a ∧ f q' r = StepResult.next qb a
      ∧ agreeExceptUrl qa qb) ∨
    (∃ e, f q r = StepResult.threw e ∧ f q' r = StepResult.threw e)

theorem runHandlers_agree {α : Type} :
    ∀ (hs : List (Handler α)) (q q' : Request α) (r : Res),
      (∀ h ∈ hs, urlInsensitive h) → agreeExceptUrl q q' →
      runHandlers hs q r = runHandlers hs q' r := by
  intro hs
  induction hs with
  | nil => intro q q' r _ _; rfl
  | cons h hs ih =>
    intro q q' r hins hag
    have h0 := hins h (List.mem_cons_self h hs) q q' r hag
    rcases h0 with ⟨a, h1, h2⟩ | ⟨qa, qb, a, h1, h2, hab⟩ | ⟨e, h1, h2⟩
    · simp only [runHandlers, h1, h2]
    · simp only [runHandlers, h1, h2]
      exact ih qa qb a (fun h' hm => hins h' (List.mem_cons_of_mem h hm)) hab
    · simp only [runHandlers, h1, h2]

theorem routeHandler_agree {α : Type} :
    ∀ (routes : List (Route α)) (pathname mth : String) (q q' : Request α) (r : Res),
      (∀ rt ∈ routes, ∀ h ∈ rt.handlers, urlInsensitive h) → agreeExceptUrl q q' →
      routeHandler routes pathname mth q r = routeHandler routes pathname mth q' r := by
  intro routes
  induction routes with
  | nil => intro pathname mth q q' r _ _; rfl
  | cons rt routes ih =>
    intro pathname mth q q' r hins hag
    have hrec := ih pathname mth q q' r
      (fun rt' hrt' => hins rt' (List.mem_cons_of_mem rt hrt')) hag
    cases hmm : matchTokens rt.tokens pathname.data with
    | none => simpa only [routeHandler, hmm] using hrec
    | some m =>
      simp only [routeHandler, hmm]
      by_cases hm : mth = rt.method
      · rw [if_pos hm, if_pos hm]
        exact runHandlers_agree rt.handlers _ _ r
          (hins rt (List.mem_cons_self rt routes)) ⟨hag.1, hag.2.1, rfl⟩
      · rw [if_neg hm, if_neg hm]
        exact hrec

theorem runMiddlewares_agree {α : Type} :
    ∀ (mws : List (Middleware α)) (finish : Request α → Res → Res)
      (q q' : Request α) (r : Res),
      (∀ mw ∈ mws, urlInsensitive mw) →
      (∀ a b s, agreeExceptUrl a b → finish a s = finish b s) →
      agreeExceptUrl q q' →
      runMiddlewares mws finish q r = runMiddlewares mws finish q' r := by
  intro mws
  induction mws with
  | nil =>
    intro finish q q' r _ hfin hag
    simp only [runMiddlewares, hfin q q' r hag]
  | cons mw mws ih =>
    intro finish q q' r hins hfin hag
    have h0 := hins mw (List.mem_cons_self mw mws) q q' r hag
    rcases h0 with ⟨a, h1, h2⟩ | ⟨qa, qb, a, h1, h2, hab⟩ | ⟨e, h1, h2⟩
    · simp only [runMiddlewares, h1, h2]
    · simp only [runMiddlewares, h1, h2]
      exact ih finish qa qb a (fun mw' hm => hins mw' (List.mem_cons_of_mem mw hm)) hfin hab
    · simp only [runMiddlewares, h1, h2]

/-- A handler that echoes the raw request url into the response body. -/
def wEchoUrlHandler : Handler Unit :=
  fun q res => StepResult.stop (res.json q.url)

/-- A registered route `GET /users` whose handler echoes the raw url. -/
def wEchoUrlRoute : Route Unit :=
  { method := "GET", tokens := (pathToRegex "/users").1,
    handlers := [wEchoUrlHandler] }

/-- Counterexample to C8 as stated: routing, matched route and parameters
coincide for `/users/` and `/users`, but the request context keeps the raw
unnormalized `req.url`, so a handler that reads it — here, echoing
`req.url` into the body — produces different responses for the two
requests.  The claim's "same response" therefore fails on the code. -/
theorem trailing_slash_same_response_counterexample :
    handleRequest [] [wEchoUrlRoute] (fun _ => none) () "GET" "/users/" ""
      ≠ handleRequest [] [wEchoUrlRoute] (fun _ => none) () "GET" "/users" "" := by
  decide

/-- Claim C8 (amended): routing is performed on the normalized path
(trailing slashes stripped, empty normalizing to `/`), so `/users/` and
`/users` select the same route with the same parameters; and the full
responses coincide provided no middleware or handler inspects the raw
unnormalized `req.url` (which the code passes through unchanged). -/
theorem trailing_slash_equivalent_routing {α : Type}
    (mws : List (Middleware α)) (routes : List (Route α))
    (parse : String → Option α) (empty : α) (mth raw p : String)
    (hmw : ∀ mw ∈ mws, urlInsensitive mw)
    (hh : ∀ rt ∈ routes, ∀ h ∈ rt.handlers, urlInsensitive h) :
    normalizePath (p ++ "/") = normalizePath p
      ∧ handleRequest mws routes parse empty mth (p ++ "/") raw
          = handleRequest mws routes parse empty mth p raw := by
  have hdata : (p ++ "/").data = p.data ++ ['/'] := by
    rw [String.data_append]
  have hnorm : normalizePath (p ++ "/") = normalizePath p := by
    unfold normalizePath stripTrailingSlashes
    rw [hdata, List.reverse_append]
    simp only [List.reverse_cons, List.reverse_nil, List.nil_append,
      List.singleton_append, List.dropWhile_cons, beq_self_eq_true, if_true]
  refine ⟨hnorm, ?_⟩
  unfold handleRequest
  rw [hnorm]
  rw [runMiddlewares_agree mws (routeHandler routes (normalizePath p) mth)
    (mkRequest parse empty mth (p ++ "/") raw) (mkRequest parse empty mth p raw)
    initRes hmw
    (fun a b s hab => routeHandler_agree routes (normalizePath p) mth a b s hh hab)
    ⟨rfl, rfl, rfl⟩]

/-- A registered route with an empty handler list. -/
def wNoHandlerRoute : Route Unit :=
  { method := "GET", tokens := (pathToRegex "/users").1, handlers := [] }

/-- Witness for the amended C8 with a concrete url-insensitive app. -/
theorem trailing_slash_equivalent_routing_witness :
    normalizePath ("/users" ++ "/") = normalizePath "/users"
      ∧ handleRequest [] [wNoHandlerRoute] (fun _ => none) ()
            "GET" ("/users" ++ "/") ""
          = handleRequest [] [wNoHandlerRoute] (fun _ => none) ()
            "GET" "/users" "" :=
  trailing_slash_equivalent_routing [] [wNoHandlerRoute] (fun _ => none) ()
    "GET" "" "/users"
    (fun mw hmw => absurd hmw (List.not_mem_nil mw))
    (by
      intro rt hrt h hmem
      rw [List.mem_singleton] at hrt
      subst hrt
      exact absurd hmem (List.not_mem_nil h))

/-- Render a compiled token back to pattern text: a literal chunk is its own
characters, a capture `(?<k>[^\/]+)` came from the pattern text `:k`. -/
def renderToken : Token → List Char
  | Token.lit s => s
  | Token.key k => ':' :: k.data

/-- Render a whole compiled pattern back to the pattern text it came from. -/
def renderTokens (ts : List Token) : List Char :=
  (ts.map renderToken).flatten

theorem renderTokens_consLit (c : Char) (ts : List Token) :
    renderTokens (consLit c ts) = c :: renderTokens ts := by
  cases ts with
  | nil => rfl
  | cons t ts =>
    cases t with
    | lit s => rfl
    | key k => rfl

theorem tokenizeAux_render :
    ∀ (fuel : Nat) (cs : List Char), cs.length ≤ fuel →
      renderTokens (tokenizeAux fuel cs) = cs := by
  intro fuel
  induction fuel with
  | zero =>
    intro cs h
    cases cs with
    | nil => rfl
    | cons c cs => simp at h
  | succ n ih =>
    intro cs h
    cases cs with
    | nil => rfl
    | cons c rest =>
      have hr : rest.length ≤ n := by
        simp only [List.length_cons] at h
        omega
      by_cases hc : c = ':'
      · subst hc
        by_cases hname : (rest.takeWhile isWordChar).isEmpty
        · simp only [tokenizeAux, eq_self_iff_true, if_true, if_pos hname,
            renderTokens_consLit, ih rest hr]
        · have hsplit := List.takeWhile_append_dropWhile isWordChar rest
          have hdw : (rest.dropWhile isWordChar).length ≤ n := by
            have := congrArg List.length hsplit
            rw [List.length_append] at this
            omega
          simp only [tokenizeAux, eq_self_iff_true, if_true, if_neg hname]
          show renderTokens (Token.key (String.mk (rest.takeWhile isWordChar))
            :: tokenizeAux n (rest.dropWhile isWordChar)) = ':' :: rest
          have hrender : renderTokens (Token.key (String.mk (rest.takeWhile isWordChar))
              :: tokenizeAux n (rest.dropWhile isWordChar))
              = (':' :: rest.takeWhile isWordChar)
                ++ renderTokens (tokenizeAux n (rest.dropWhile isWordChar)) := rfl
          rw [hrender, ih _ hdw]
          simp only [List.cons_append, hsplit]
      · simp only [tokenizeAux, if_neg hc, renderTokens_consLit, ih rest hr]

/-- Does the text begin with an alphanumeric/underscore character? -/
def startsWord : List Char → Bool
  | [] => false
  | c :: _ => isWordChar c

/-- Scan a literal chunk for a missed capture occurrence: a `:` immediately
followed by a word character.  The follower may lie past the end of the
chunk, in the pattern text rendered after it; `nextWord` says whether that
following text begins with a word character.  `true` means the chunk
contains no such occurrence. -/
def litNoCapture : List Char → Bool → Bool
  | [], _ => true
  | [c], nextWord => !(c == ':' && nextWord)
  | c :: c2 :: rest, nextWord =>
    !(c == ':' && isWordChar c2) && litNoCapture (c2 :: rest) nextWord

/-- The amended claim's characterization of a compiled pattern, following
its words: every capture name is a nonempty word-character run and is
maximal (the pattern text rendered after the capture does not begin with a
word character), and no `:`-immediately-followed-by-a-word-character
occurrence survives inside the literal chunks — so every such occurrence
of the pattern, wherever it sits, became a capture. -/
def capturesSpec : List Token → Bool
  | [] => true
  | Token.lit s :: rest =>
    litNoCapture s (startsWord (renderTokens rest)) && capturesSpec rest
  | Token.key k :: rest =>
    (!k.data.isEmpty) && k.data.all isWordChar
      && !(startsWord (renderTokens rest)) && capturesSpec rest

theorem capturesSpec_consLit (c : Char) (ts : List Token)
    (hc : (c == ':' && startsWord (renderTokens ts)) = false)
    (hts : capturesSpec ts = true) :
    capturesSpec (consLit c ts) = true := by
  cases ts with
  | nil =>
    simp [consLit, capturesSpec, litNoCapture, renderTokens, startsWord]
  | cons t rest =>
    cases t with
    | lit s =>
      simp only [capturesSpec, Bool.and_eq_true] at hts
      obtain ⟨hlit, hrest⟩ := hts
      simp only [consLit, capturesSpec, Bool.and_eq_true]
      refine ⟨?_, hrest⟩
      cases s with
      | nil =>
        have hx : (c == ':' && startsWord (renderTokens rest)) = false := hc
        simp only [litNoCapture]
        rw [hx]
        rfl
      | cons c2 s' =>
        have hx : (c == ':' && isWordChar c2) = false := hc
        simp only [litNoCapture, Bool.and_eq_true]
        exact ⟨by rw [hx]; rfl, hlit⟩
    | key k' =>
      show (litNoCapture [c] (startsWord (renderTokens (Token.key k' :: rest)))
        && capturesSpec (Token.key k' :: rest)) = true
      have hsw : startsWord (renderTokens (Token.key k' :: rest)) = false := rfl
      rw [hsw, hts]
      simp [litNoCapture]

theorem takeWhile_nil_startsWord (l : List Char)
    (h : (l.takeWhile isWordChar).isEmpty = true) : startsWord l = false := by
  cases l with
  | nil => rfl
  | cons c t =>
    rw [List.takeWhile_cons] at h
    by_cases hp : isWordChar c = true
    · rw [if_pos hp] at h
      simp at h
    · simp only [startsWord]
      cases hw : isWordChar c
      · rfl
      · exact absurd hw hp

theorem startsWord_dropWhile (l : List Char) :
    startsWord (l.dropWhile isWordChar) = false := by
  induction l with
  | nil => rfl
  | cons c t ih =>
    rw [List.dropWhile_cons]
    by_cases hp : isWordChar c = true
    · rw [if_pos hp]
      exact ih
    · rw [if_neg hp]
      simp only [startsWord]
      cases hw : isWordChar c
      · rfl
      · exact absurd hw hp

theorem tokenizeAux_capturesSpec :
    ∀ (fuel : Nat) (cs : List Char), cs.length ≤ fuel →
      capturesSpec (tokenizeAux fuel cs) = true := by
  intro fuel
  induction fuel with
  | zero =>
    intro cs h
    cases cs with
    | nil => rfl
    | cons c t => simp at h
  | succ n ih =>
    intro cs h
    cases cs with
    | nil => rfl
    | cons c rest =>
      have hr : rest.length ≤ n := by
        simp only [List.length_cons] at h
        omega
      by_cases hc : c = ':'
      · subst hc
        by_cases hname : (rest.takeWhile isWordChar).isEmpty = true
        · rw [show tokenizeAux (n + 1) (':' :: rest)
              = consLit ':' (tokenizeAux n rest) by
            simp only [tokenizeAux, eq_self_iff_true, if_true, if_pos hname]]
          apply capturesSpec_consLit
          · rw [tokenizeAux_render n rest hr, takeWhile_nil_startsWord rest hname,
              Bool.and_false]
          · exact ih rest hr
        · rw [show tokenizeAux (n + 1) (':' :: rest)
              = Token.key (String.mk (rest.takeWhile isWordChar))
                :: tokenizeAux n (rest.dropWhile isWordChar) by
            simp only [tokenizeAux, eq_self_iff_true, if_true, if_neg hname]]
          have hdw : (rest.dropWhile isWordChar).length ≤ n := by
            have hsplit := congrArg List.length
              (List.takeWhile_append_dropWhile isWordChar rest)
            rw [List.length_append] at hsplit
            omega
          have hname' : (rest.takeWhile isWordChar).isEmpty = false := by
            cases h' : (rest.takeWhile isWordChar).isEmpty
            · rfl
            · exact absurd h' hname
          have f1 : (String.mk (rest.takeWhile isWordChar)).data.isEmpty = false :=
            hname'
          have f2 : (String.mk (rest.takeWhile isWordChar)).data.all isWordChar
              = true :=
            List.all_eq_true.mpr (fun x hx => List.mem_takeWhile_imp hx)
          have f3 : startsWord
              (renderTokens (tokenizeAux n (rest.dropWhile isWordChar))) = false := by
            rw [tokenizeAux_render n _ hdw]
            exact startsWord_dropWhile rest
          simp only [capturesSpec]
          rw [f1, f2, f3, ih _ hdw]
          rfl
      · rw [show tokenizeAux (n + 1) (c :: rest)
            = consLit c (tokenizeAux n rest) by
          simp only [tokenizeAux, if_neg hc]]
        apply capturesSpec_consLit
        · rw [beq_eq_false_iff_ne.mpr hc]
          rfl
        · exact ih rest hr

/-- A decomposition certificate for a successful match: walking the tokens
left to right, every literal chunk occurs verbatim at its position of the
path, and every capture consumes a nonempty run of non-`/` characters. -/
def decomposes : List Token → List Char → List (String × String) → Bool
  | [], [], [] => true
  | Token.lit s :: ts, input, m =>
    s.isPrefixOf input && decomposes ts (input.drop s.length) m
  | Token.key k :: ts, input, (k', v) :: m =>
    (k' == k) && (!v.data.isEmpty) && v.data.all (fun c => c != '/')
      && v.data.isPrefixOf input && decomposes ts (input.drop v.data.length) m
  | _, _, _ => false

theorem tryLens_sound (k : String)
    (cont : List Char → Option (List (String × String))) (input : List Char) :
    ∀ (n : Nat) (m : List (String × String)), tryLens k cont input n = some m →
      ∃ j m', 1 ≤ j ∧ j ≤ n ∧ cont (input.drop j) = some m'
        ∧ m = (k, String.mk (input.take j)) :: m' := by
  intro n
  induction n with
  | zero =>
    intro m h
    simp [tryLens] at h
  | succ n ih =>
    intro m h
    simp only [tryLens] at h
    split at h
    · rename_i r heq
      rw [Option.map_eq_some'] at heq
      obtain ⟨m', hm', hr⟩ := heq
      have hmr : r = m := by
        injection h
      refine ⟨n + 1, m', by omega, le_refl _, hm', ?_⟩
      exact (hr.trans hmr).symm
    · obtain ⟨j, m', h1, h2, h3, h4⟩ := ih m h
      exact ⟨j, m', h1, Nat.le_succ_of_le h2, h3, h4⟩

theorem take_of_le_takeWhile {p : Char → Bool} {l : List Char} {j : Nat}
    (hj : j ≤ (l.takeWhile p).length) : ∀ c ∈ l.take j, p c = true := by
  intro c hc
  have htake : l.take j = (l.takeWhile p).take j := by
    conv_lhs => rw [← List.takeWhile_append_dropWhile p l]
    rw [List.take_append_eq_append_take]
    have hz : j - (l.takeWhile p).length = 0 := by omega
    rw [hz, List.take_zero, List.append_nil]
  rw [htake] at hc
  exact List.mem_takeWhile_imp (List.take_subset _ _ hc)

theorem matchTokens_decomposes :
    ∀ (ts : List Token) (input : List Char) (m : List (String × String)),
      matchTokens ts input = some m → decomposes ts input m = true := by
  intro ts
  induction ts with
  | nil =>
    intro input m h
    cases input with
    | nil =>
      have hm : ([] : List (String × String)) = m := by
        injection h
      rw [← hm]
      rfl
    | cons c t => simp [matchTokens] at h
  | cons t ts ih =>
    intro input m h
    cases t with
    | lit s =>
      simp only [matchTokens] at h
      by_cases hp : s.isPrefixOf input = true
      · rw [if_pos hp] at h
        simp only [decomposes]
        rw [hp, ih _ _ h]
        rfl
      · rw [if_neg hp] at h
        simp at h
    | key k =>
      simp only [matchTokens] at h
      obtain ⟨j, m', hj1, hj2, hcont, hm⟩ := tryLens_sound k (matchTokens ts) input _ m h
      subst hm
      have hrun : (input.takeWhile (fun c => c != '/')).length ≤ input.length := by
        have hsplit := congrArg List.length
          (List.takeWhile_append_dropWhile (fun c => c != '/') input)
        rw [List.length_append] at hsplit
        omega
      have hjlen : j ≤ input.length := le_trans hj2 hrun
      have hlen : (input.take j).length = j := by
        rw [List.length_take]
        exact Nat.min_eq_left hjlen
      have hne : (input.take j).isEmpty = false := by
        cases he : (input.take j).isEmpty
        · rfl
        · exfalso
          have hnil : input.take j = [] := List.isEmpty_iff.mp he
          rw [hnil] at hlen
          simp at hlen
          omega
      have f1 : (k == k) = true := beq_self_eq_true k
      have f2 : (String.mk (input.take j)).data.isEmpty = false := hne
      have f3 : (String.mk (input.take j)).data.all (fun c => c != '/') = true :=
        List.all_eq_true.mpr (take_of_le_takeWhile hj2)
      have f4 : (String.mk (input.take j)).data.isPrefixOf input = true :=
        List.isPrefixOf_iff_prefix.mpr (List.take_prefix j input)
      have f5 : decomposes ts (input.drop (String.mk (input.take j)).data.length) m'
          = true := by
        have hl : (String.mk (input.take j)).data.length = j := hlen
        rw [hl]
        exact ih _ _ hcont
      simp only [decomposes]
      rw [f1, f2, f3, f4, f5]
      rfl

/-- Counterexample to C10 as stated: in the pattern `/a:b` the `:` occurs in
the middle of a segment (the segment is `a:b`), so per the claim it should
be matched verbatim — the only matching path would be `/a:b` itself.  The
code instead compiles `:b` into a named capture wherever it occurs, so the
pattern matches `/aZ` with `b = "Z"`. -/
theorem colon_midsegment_capture :
    (pathToRegex "/a:b").1 = [Token.lit ['/', 'a'], Token.key "b"]
      ∧ matchTokens (pathToRegex "/a:b").1 "/aZ".data = some [("b", "Z")] := by
  decide

/-- Claim C10 (amended): pattern compilation treats every occurrence of `:`
immediately followed by a nonempty run of alphanumeric/underscore
characters — anywhere in the pattern, not only at the start of a segment —
as a named capture whose name is the maximal such run, and every other
character is kept in a literal chunk and matched verbatim.  Formally:
(i) rendering every capture back as `:name` reconstructs the normalized
pattern exactly, so the literal chunks are precisely the pattern text
outside the captures; (ii) every capture name is a nonempty
word-character run, every capture is maximal — the pattern text after it
does not begin with a word character — and no `:` immediately followed by
a word character survives inside or across the literal chunks, so every
such occurrence became a capture; (iii) any path the compiled matcher
accepts decomposes so that each literal chunk appears verbatim at its
position and each capture consumes a nonempty run of non-`/` characters. -/
theorem pathToRegex_tokens_faithful (pat : String) :
    renderTokens (pathToRegex pat).1 = (normalizePath pat).data
      ∧ capturesSpec (pathToRegex pat).1 = true
      ∧ ∀ (input : List Char) (m : List (String × String)),
          matchTokens (pathToRegex pat).1 input = some m →
          decomposes (pathToRegex pat).1 input m = true :=
  ⟨tokenizeAux_render _ _ le_rfl, tokenizeAux_capturesSpec _ _ le_rfl,
   fun input m h => matchTokens_decomposes _ input m h⟩

/-- Witness for the amended C10 at the counterexample's pattern `/a:b`: its
compilation satisfies the capture characterization, and the accepted path
`/aZ` decomposes with the literal `/a` verbatim and `b` capturing `Z`. -/
theorem pathToRegex_tokens_faithful_witness :
    renderTokens (pathToRegex "/a:b").1 = (normalizePath "/a:b").data
      ∧ capturesSpec (pathToRegex "/a:b").1 = true
      ∧ decomposes (pathToRegex "/a:b").1 "/aZ".data [("b", "Z")] = true :=
  ⟨(pathToRegex_tokens_faithful "/a:b").1,
   (pathToRegex_tokens_faithful "/a:b").2.1,
   (pathToRegex_tokens_faithful "/a:b").2.2 "/aZ".data [("b", "Z")] (by decide)⟩

end Replicax
